import Mathlib

/-!
Shallow embedding of the lsp-bench core (src/index.ts and src/line_table.ts).

Text is modelled as `List Char`; JS string indices become list positions.
The `LineTable` class, its binary search `getLowerBound`, the token scan of
the main loop (the word regex run left to right), the comment-line
heuristic, the probe/revert edit cycle with its version counter, and the
result-cardinality classification are embedded as executable definitions.
-/

namespace LspBench

/-- Character code of a line feed (`Chars.lineFeed` in line_table.ts). -/
def lineFeedCode : Nat := 10

/-- Character code of a carriage return (`Chars.carriageReturn` in line_table.ts). -/
def carriageReturnCode : Nat := 13

/-- The forward scan of the `LineTable` constructor, started after the initial
entry 0: walking the text from position `i`, it pushes `i + 1` after a line
feed, and on a carriage return first skips a directly following line feed
(the `++i` inside the loop) so that a CRLF pair yields a single new line
start past both characters. -/
def scanLineStarts : List Char → Nat → List Nat
  | [], _ => []
  | [c], i =>
    if c.toNat = lineFeedCode then [i + 1]
    else if c.toNat = carriageReturnCode then [i + 1]
    else []
  | c :: c2 :: rest2, i =>
    if c.toNat = lineFeedCode then
      (i + 1) :: scanLineStarts (c2 :: rest2) (i + 1)
    else if c.toNat = carriageReturnCode then
      if c2.toNat = lineFeedCode then
        (i + 2) :: scanLineStarts rest2 (i + 2)
      else
        (i + 1) :: scanLineStarts (c2 :: rest2) (i + 1)
    else
      scanLineStarts (c2 :: rest2) (i + 1)

/-- The line-start sequence built by the `LineTable` constructor: `[0]`
followed by the scan, with `text.length` appended when the last entry
differs from it (the trailing push in the constructor). -/
def computeLineStarts (text : List Char) : List Nat :=
  let ls := 0 :: scanLineStarts text 0
  if ls.getLast? = some text.length then ls else ls ++ [text.length]

/-- The `LineTable` class: it stores the computed line starts. -/
structure LineTable where
  lineStarts : List Nat
  deriving DecidableEq

/-- The `LineTable` constructor. -/
def LineTable.ofText (text : List Char) : LineTable :=
  ⟨computeLineStarts text⟩

/-- `getStartOfLine`: direct index into the line-start array. -/
def LineTable.getStartOfLine (t : LineTable) (line : Nat) : Nat :=
  t.lineStarts.getD line 0

/-- The midpoint computation of the binary-search loop in `getLowerBound`:
`high - ((high - low) >> 1)`, the middle rounded up. -/
def glbMid (low high : Nat) : Nat :=
  high - (high - low) / 2

/-- The while loop of `getLowerBound`, with an explicit iteration bound
(`fuel`): each iteration either narrows to `[low, mid - 1]` or to
`[mid, high]`, and `none` marks fuel exhaustion, which is proved
unreachable when `fuel > high - low`. -/
def glbLoop (array : List Nat) (value : Nat) : Nat → Nat → Nat → Option Nat
  | _, _, 0 => none
  | low, high, fuel + 1 =>
    if low < high then
      if value < array.getD (glbMid low high) 0 then
        glbLoop array value low (glbMid low high - 1) fuel
      else
        glbLoop array value (glbMid low high) high fuel
    else
      some low

/-- `getLowerBound` from line_table.ts: returns the last index whose element
is less than or equal to `value`, or 0 when `value` precedes the first
element. The loop is run with `array.length` as iteration bound, which is
proved sufficient; the `getD 0` fallback is never taken. -/
def getLowerBound (array : List Nat) (value : Nat) : Nat :=
  if value < array.getD 0 0 then 0
  else if array.getD (array.length - 1) 0 ≤ value then array.length - 1
  else (glbLoop array value 0 (array.length - 1) array.length).getD 0

/-- `getLineFromOffset`: lower-bound search over the line starts. -/
def LineTable.getLineFromOffset (t : LineTable) (offset : Nat) : Nat :=
  getLowerBound t.lineStarts offset

/-- `getColumnFromLineAndOffset`: offset minus the start of the given line.
In every reachable call the line start does not exceed the offset, so the
truncated subtraction agrees with the JS subtraction. -/
def LineTable.getColumnFromLineAndOffset (t : LineTable) (line offset : Nat) : Nat :=
  offset - t.lineStarts.getD line 0

/-- The `LineAndColumn1` interface: 1-based line and column numbers. -/
structure LineAndColumn1 where
  line : Nat
  column : Nat
  deriving DecidableEq

/-- `get1BasedLineAndColumn`: the 0-based line and column of an offset, each
incremented by one. -/
def LineTable.get1BasedLineAndColumn (t : LineTable) (offset : Nat) : LineAndColumn1 :=
  let line := t.getLineFromOffset offset
  let column := t.getColumnFromLineAndOffset line offset
  ⟨line + 1, column + 1⟩

/-- JS whitespace as matched by the regex class used in the comment
heuristic, by character code. -/
def isJsSpace (c : Char) : Bool :=
  [9, 10, 11, 12, 13, 32, 160, 0x1680, 0x2000, 0x2001, 0x2002, 0x2003, 0x2004,
    0x2005, 0x2006, 0x2007, 0x2008, 0x2009, 0x200a, 0x2028, 0x2029, 0x202f,
    0x205f, 0x3000, 0xfeff].contains c.toNat

/-- The comment-line heuristic of index.ts: after leading
whitespace the line starts with a star, a slash-star, or two slashes. -/
def isCommentLine (line : List Char) : Bool :=
  match line.dropWhile isJsSpace with
  | '*' :: _ => true
  | '/' :: '*' :: _ => true
  | '/' :: '/' :: _ => true
  | _ => false

/-- Whether a character can start a word token: a letter or underscore. -/
def isWordStart (c : Char) : Bool :=
  (97 ≤ c.toNat && c.toNat ≤ 122) || (65 ≤ c.toNat && c.toNat ≤ 90) || c.toNat = 95

/-- Whether a character can continue a word token: letter, underscore or digit. -/
def isWordChar (c : Char) : Bool :=
  isWordStart c || (48 ≤ c.toNat && c.toNat ≤ 57)

/-- The repeated global exec of the word regex over the text, as a single
left-to-right pass: the accumulator holds the start offset and the reversed
characters of a token in progress. Produces the matches as
(offset, word) pairs, leftmost and maximal, exactly as the exec loop of
index.ts enumerates them. -/
def scanTokensAux : List Char → Nat → Option (Nat × List Char) → List (Nat × List Char)
  | [], _, none => []
  | [], _, some (s, w) => [(s, w.reverse)]
  | c :: cs, i, none =>
    if isWordStart c then scanTokensAux cs (i + 1) (some (i, [c]))
    else scanTokensAux cs (i + 1) none
  | c :: cs, i, some (s, w) =>
    if isWordChar c then scanTokensAux cs (i + 1) (some (s, c :: w))
    else (s, w.reverse) :: scanTokensAux cs (i + 1) none

/-- All word-token matches of the text, in order of appearance. -/
def scanTokens (text : List Char) : List (Nat × List Char) :=
  scanTokensAux text 0 none

/-- The line split of index.ts: the text divided at
each CRLF pair, lone CR, or lone LF. -/
def splitLines : List Char → List (List Char)
  | [] => [[]]
  | '\r' :: '\n' :: rest => [] :: splitLines rest
  | '\r' :: rest => [] :: splitLines rest
  | '\n' :: rest => [] :: splitLines rest
  | c :: rest =>
    match splitLines rest with
    | [] => [[c]]
    | l :: ls => (c :: l) :: ls

/-- One probe-and-revert cycle of the main loop, for one measured token:
the token's offset and characters, the 1-based line and column recorded in
the Measurement, the version and full replacement text of the probe
change notification, the position and version sent with the measured
request, and the version and full text of the revert change
notification. -/
structure Cycle where
  offset : Nat
  word : List Char
  line : Nat
  column : Nat
  probeVersion : Nat
  probeText : List Char
  posLine : Nat
  posColumn : Nat
  requestVersion : Nat
  revertVersion : Nat
  revertText : List Char
  deriving DecidableEq, Inhabited

/-- The per-token while loop of `main` in index.ts, for one file: walks the
token matches, skips tokens whose start line passes the comment heuristic,
and otherwise performs a cycle: bump the version and send the probe text
(a space inserted after the token in jump-to-def mode, the token deleted in
completion mode), issue the request at the token's 1-based position on the
probe version, then bump the version again and send back the original
text. Returns the cycles in order together with the final version
counter. -/
def runTokens (jumpToDef : Bool) (text : List Char) (lines : List (List Char))
    (lineTable : LineTable) :
    List (Nat × List Char) → Nat → List Cycle × Nat
  | [], version => ([], version)
  | (matchIndex, word) :: rest, version =>
    let matchEndIndex := matchIndex + word.length
    let lc := lineTable.get1BasedLineAndColumn matchIndex
    if isCommentLine (lines.getD (lc.line - 1) []) then
      runTokens jumpToDef text lines lineTable rest version
    else
      let modifiedVersion := version + 1
      let replacedText :=
        if jumpToDef then
          text.take matchEndIndex ++ ' ' :: text.drop matchEndIndex
        else
          text.take matchIndex ++ text.drop matchEndIndex
      let revertedVersion := modifiedVersion + 1
      let c : Cycle :=
        { offset := matchIndex, word := word, line := lc.line, column := lc.column,
          probeVersion := modifiedVersion, probeText := replacedText,
          posLine := lc.line, posColumn := lc.column,
          requestVersion := modifiedVersion,
          revertVersion := revertedVersion, revertText := text }
      let res := runTokens jumpToDef text lines lineTable rest revertedVersion
      (c :: res.1, res.2)

/-- The processing of one file by `main`: the document is opened at version
1 with the file's text, and the token loop runs from there. Each cycle
yields exactly one Measurement, whose line and column are the cycle's. -/
structure FileRun where
  openVersion : Nat
  openText : List Char
  cycles : List Cycle
  finalVersion : Nat
  deriving DecidableEq

/-- Processing of one file: build the line table and the split lines from
the original text, scan the tokens, and run the edit loop starting at
version 1. -/
def processFile (jumpToDef : Bool) (text : List Char) : FileRun :=
  let lineTable := LineTable.ofText text
  let lines := splitLines text
  let res := runTokens jumpToDef text lines lineTable (scanTokens text) 1
  { openVersion := 1, openText := text, cycles := res.1, finalVersion := res.2 }

/-- JSON-like values, for the response result of the measured request.
`null` stands for an absent or null result (both falsy in JS); `prim`
stands for any other primitive, carrying its JS truthiness. -/
inductive Json where
  | null
  | arr (elems : List Json)
  | obj (fields : List (String × Json))
  | prim (truthy : Bool)

/-- First field of an object with the given key. -/
def jsonField (key : String) : List (String × Json) → Option Json
  | [] => none
  | (k, v) :: rest => if k = key then some v else jsonField key rest

/-- The result-cardinality classification of index.ts: falsy result gives 0,
an array gives its length, an object with an items field gives that
field's length, anything else gives 1. `none` marks the places where the
JS has no number to record (the items field is not an array, or the
membership test is applied to a primitive); on results of the shapes the
protocol declares this does not occur. -/
def numberOfResults : Json → Option Nat
  | .null => some 0
  | .prim truthy => if truthy then none else some 0
  | .arr elems => some elems.length
  | .obj fields =>
    match jsonField "items" fields with
    | some (.arr items) => some items.length
    | some _ => none
    | none => some 1

/-! Helper lemmas about the binary search. -/

/-- Bounds on the rounded-up midpoint: it lies strictly between `low` and
`high` (inclusive on the right), and both halves of the split are strictly
smaller than the original interval. -/
theorem glbMid_bounds (low high : Nat) (h : low < high) :
    low < glbMid low high ∧ glbMid low high ≤ high ∧
      high - glbMid low high < high - low ∧ glbMid low high - 1 - low < high - low := by
  unfold glbMid
  omega

/-- The binary-search loop never exhausts its fuel when the fuel exceeds the
width of the interval. -/
theorem glbLoop_isSome (array : List Nat) (value : Nat) :
    ∀ (fuel low high : Nat), high - low < fuel →
      (glbLoop array value low high fuel).isSome = true := by
  intro fuel
  induction fuel with
  | zero => intro low high h; exact absurd h (by omega)
  | succ n ih =>
    intro low high h
    rw [glbLoop]
    by_cases hlt : low < high
    · have hm := glbMid_bounds low high hlt
      rw [if_pos hlt]
      by_cases hv : value < array.getD (glbMid low high) 0
      · rw [if_pos hv]
        exact ih low (glbMid low high - 1) (by omega)
      · rw [if_neg hv]
        exact ih (glbMid low high) high (by omega)
    · rw [if_neg hlt]
      rfl

/-- Correctness of the binary-search loop on a monotone array: starting from
an interval whose left element is at most `value` and with every element
right of the interval exceeding `value`, the loop yields an index `r` in
the interval with `array[r] ≤ value` and every element right of `r`
exceeding `value`. -/
theorem glbLoop_spec (array : List Nat) (value : Nat)
    (hmono : ∀ i j, i ≤ j → j < array.length → array.getD i 0 ≤ array.getD j 0) :
    ∀ (fuel low high : Nat), low ≤ high → high < array.length → high - low < fuel →
      array.getD low 0 ≤ value →
      (∀ j, high < j → j < array.length → value < array.getD j 0) →
      ∃ r, glbLoop array value low high fuel = some r ∧ low ≤ r ∧ r ≤ high ∧
        array.getD r 0 ≤ value ∧
        ∀ j, r < j → j < array.length → value < array.getD j 0 := by
  intro fuel
  induction fuel with
  | zero => intro low high _ _ h; exact absurd h (by omega)
  | succ n ih =>
    intro low high hlh hhl hf h1 h2
    rw [glbLoop]
    by_cases hlt : low < high
    · have hm := glbMid_bounds low high hlt
      rw [if_pos hlt]
      by_cases hv : value < array.getD (glbMid low high) 0
      · rw [if_pos hv]
        obtain ⟨r, hr, h3, h4, h5, h6⟩ :=
          ih low (glbMid low high - 1) (by omega) (by omega) (by omega) h1
            (fun j hj hjl => lt_of_lt_of_le hv (hmono _ j (by omega) hjl))
        exact ⟨r, hr, h3, by omega, h5, h6⟩
      · rw [if_neg hv]
        push_neg at hv
        obtain ⟨r, hr, h3, h4, h5, h6⟩ :=
          ih (glbMid low high) high (by omega) hhl (by omega) hv h2
        exact ⟨r, hr, by omega, h4, h5, h6⟩
    · rw [if_neg hlt]
      exact ⟨low, rfl, Nat.le_refl _, hlh, h1, fun j hj hjl => h2 j (by omega) hjl⟩

/-- Correctness of `getLowerBound` on a nonempty monotone array: the result
is in range, and whenever the first element does not exceed `value` the
result indexes an element at most `value` and dominates every index whose
element is at most `value`. -/
theorem getLowerBound_spec (array : List Nat) (value : Nat) (hne : array ≠ [])
    (hmono : ∀ i j, i ≤ j → j < array.length → array.getD i 0 ≤ array.getD j 0) :
    getLowerBound array value < array.length ∧
      (array.getD 0 0 ≤ value →
        array.getD (getLowerBound array value) 0 ≤ value ∧
        ∀ j, j < array.length → array.getD j 0 ≤ value → j ≤ getLowerBound array value) := by
  have hlen : 0 < array.length := List.length_pos.mpr hne
  unfold getLowerBound
  by_cases h0 : value < array.getD 0 0
  · rw [if_pos h0]
    exact ⟨hlen, fun h => absurd h (by omega)⟩
  · rw [if_neg h0]
    push_neg at h0
    by_cases hhi : array.getD (array.length - 1) 0 ≤ value
    · rw [if_pos hhi]
      exact ⟨by omega, fun _ => ⟨hhi, fun j hj _ => by omega⟩⟩
    · rw [if_neg hhi]
      push_neg at hhi
      obtain ⟨r, hr, h3, h4, h5, h6⟩ :=
        glbLoop_spec array value hmono array.length 0 (array.length - 1)
          (by omega) (by omega) (by omega) h0
          (fun j hj hjl => absurd hjl (by omega))
      rw [hr]
      refine ⟨by simpa using by omega, fun _ => ⟨by simpa using h5, fun j hjl hja => ?_⟩⟩
      simp only [Option.getD_some]
      by_contra hc
      push_neg at hc
      exact absurd hja (not_le.mpr (h6 j hc hjl))

/-! Helper lemmas about the line-start scan. -/

/-- Every line start produced by the scan started at position `i` lies
strictly beyond `i` and within the scanned text, and the produced starts
are strictly increasing. -/
theorem scanLineStarts_props :
    ∀ (n : Nat) (text : List Char), text.length ≤ n → ∀ (i : Nat),
      List.Chain' (· < ·) (scanLineStarts text i) ∧
      ∀ x ∈ scanLineStarts text i, i < x ∧ x ≤ i + text.length := by
  intro n
  induction n with
  | zero =>
    intro text hlen i
    have : text = [] := List.eq_nil_of_length_eq_zero (by omega)
    subst this
    simp [scanLineStarts]
  | succ n ih =>
    intro text hlen i
    match text with
    | [] => simp [scanLineStarts]
    | [c] =>
      simp only [scanLineStarts]
      by_cases h1 : c.toNat = lineFeedCode
      · rw [if_pos h1]
        refine ⟨List.chain'_singleton _, ?_⟩
        intro x hx
        simp only [List.mem_singleton] at hx
        simp only [List.length_singleton]
        omega
      · rw [if_neg h1]
        by_cases h2 : c.toNat = carriageReturnCode
        · rw [if_pos h2]
          refine ⟨List.chain'_singleton _, ?_⟩
          intro x hx
          simp only [List.mem_singleton] at hx
          simp only [List.length_singleton]
          omega
        · rw [if_neg h2]
          simp
    | c :: c2 :: rest2 =>
      have hlen2 : (c2 :: rest2).length ≤ n := by
        simp only [List.length_cons] at hlen ⊢
        omega
      have hlen3 : rest2.length ≤ n := by
        simp only [List.length_cons] at hlen
        omega
      simp only [scanLineStarts]
      by_cases h1 : c.toNat = lineFeedCode
      · rw [if_pos h1]
        obtain ⟨hch, hbd⟩ := ih (c2 :: rest2) hlen2 (i + 1)
        refine ⟨List.chain'_cons'.mpr ⟨?_, hch⟩, ?_⟩
        · intro y hy
          have := (hbd y (List.mem_of_mem_head? hy)).1
          omega
        · intro x hx
          rcases List.mem_cons.mp hx with h | h
          · subst h
            simp only [List.length_cons]
            omega
          · have := hbd x h
            simp only [List.length_cons] at this ⊢
            omega
      · rw [if_neg h1]
        by_cases h2 : c.toNat = carriageReturnCode
        · rw [if_pos h2]
          by_cases h3 : c2.toNat = lineFeedCode
          · rw [if_pos h3]
            obtain ⟨hch, hbd⟩ := ih rest2 hlen3 (i + 2)
            refine ⟨List.chain'_cons'.mpr ⟨?_, hch⟩, ?_⟩
            · intro y hy
              have := (hbd y (List.mem_of_mem_head? hy)).1
              omega
            · intro x hx
              rcases List.mem_cons.mp hx with h | h
              · subst h
                simp only [List.length_cons]
                omega
              · have := hbd x h
                simp only [List.length_cons] at this ⊢
                omega
          · rw [if_neg h3]
            obtain ⟨hch, hbd⟩ := ih (c2 :: rest2) hlen2 (i + 1)
            refine ⟨List.chain'_cons'.mpr ⟨?_, hch⟩, ?_⟩
            · intro y hy
              have := (hbd y (List.mem_of_mem_head? hy)).1
              omega
            · intro x hx
              rcases List.mem_cons.mp hx with h | h
              · subst h
                simp only [List.length_cons]
                omega
              · have := hbd x h
                simp only [List.length_cons] at this ⊢
                omega
        · rw [if_neg h2]
          obtain ⟨hch, hbd⟩ := ih (c2 :: rest2) hlen2 (i + 1)
          refine ⟨hch, ?_⟩
          intro x hx
          have := hbd x hx
          simp only [List.length_cons] at this ⊢
          omega

/-- The computed line-start sequence is strictly increasing, starts with 0,
is nonempty, and stays within the text length. -/
theorem computeLineStarts_props (text : List Char) :
    List.Chain' (· < ·) (computeLineStarts text) ∧
      (computeLineStarts text).head? = some 0 ∧
      computeLineStarts text ≠ [] := by
  obtain ⟨hch, hbd⟩ := scanLineStarts_props text.length text (Nat.le_refl _) 0
  have hch0 : List.Chain' (· < ·) (0 :: scanLineStarts text 0) :=
    List.chain'_cons'.mpr ⟨fun y hy => (hbd y (List.mem_of_mem_head? hy)).1, hch⟩
  unfold computeLineStarts
  by_cases hl : (0 :: scanLineStarts text 0).getLast? = some text.length
  · rw [if_pos hl]
    exact ⟨hch0, rfl, List.cons_ne_nil _ _⟩
  · rw [if_neg hl]
    refine ⟨?_, ?_, ?_⟩
    · refine List.chain'_append.mpr ⟨hch0, List.chain'_singleton _, ?_⟩
      intro x hx y hy
      simp only [List.head?_cons, Option.mem_def, Option.some.injEq] at hy
      subst hy
      have hxm : x ∈ 0 :: scanLineStarts text 0 := by
        obtain ⟨hne, hx'⟩ := List.mem_getLast?_eq_getLast hx
        subst hx'
        exact List.getLast_mem hne
      have hxle : x ≤ text.length := by
        rcases List.mem_cons.mp hxm with h | h
        · omega
        · have := (hbd x h).2
          omega
      have hxne : x ≠ text.length := by
        intro h
        subst h
        exact hl (by simpa using hx)
      omega
    · simp
    · simp

/-- Elements of the computed line-start sequence are strictly monotone in
the index. -/
theorem computeLineStarts_strictMono (text : List Char) :
    ∀ i j, i < j → j < (computeLineStarts text).length →
      (computeLineStarts text).getD i 0 < (computeLineStarts text).getD j 0 := by
  have hpw : List.Pairwise (· < ·) (computeLineStarts text) :=
    List.chain'_iff_pairwise.mp (computeLineStarts_props text).1
  intro i j hij hj
  have := List.pairwise_iff_get.mp hpw ⟨i, by omega⟩ ⟨j, hj⟩ hij
  rw [List.getD_eq_getElem _ _ (by omega : i < (computeLineStarts text).length),
    List.getD_eq_getElem _ _ hj]
  simpa using this

/-- Elements of the computed line-start sequence are monotone in the index. -/
theorem computeLineStarts_mono (text : List Char) :
    ∀ i j, i ≤ j → j < (computeLineStarts text).length →
      (computeLineStarts text).getD i 0 ≤ (computeLineStarts text).getD j 0 := by
  intro i j hij hj
  rcases Nat.lt_or_ge i j with h | h
  · exact Nat.le_of_lt (computeLineStarts_strictMono text i j h hj)
  · have : i = j := by omega
    subst this
    exact Nat.le_refl _

/-- The first computed line start is 0. -/
theorem computeLineStarts_getD_zero (text : List Char) :
    (computeLineStarts text).getD 0 0 = 0 := by
  obtain ⟨-, hh, -⟩ := computeLineStarts_props text
  match h : computeLineStarts text with
  | [] => rw [h] at hh; simp at hh
  | a :: t =>
    rw [h] at hh
    simp only [List.head?_cons, Option.some.injEq] at hh
    subst hh
    rfl

/-! Helper lemmas about the per-token edit loop. -/

/-- Shape of every cycle produced by the token loop: the revert carries the
original text, the request position and version are the ones recorded in
the cycle, the revert version directly follows the probe version, the
line and column are the table's 1-based answer for the token's offset,
the probe text is the full-document replacement for the mode, and the
token's line did not pass the comment heuristic. -/
theorem runTokens_mem (jumpToDef : Bool) (text : List Char) (lines : List (List Char))
    (lineTable : LineTable) :
    ∀ (toks : List (Nat × List Char)) (version : Nat) (c : Cycle),
      c ∈ (runTokens jumpToDef text lines lineTable toks version).1 →
      c.revertText = text ∧
      c.posLine = c.line ∧ c.posColumn = c.column ∧
      c.requestVersion = c.probeVersion ∧
      c.revertVersion = c.probeVersion + 1 ∧
      (⟨c.line, c.column⟩ : LineAndColumn1) = lineTable.get1BasedLineAndColumn c.offset ∧
      c.probeText = (if jumpToDef then
          text.take (c.offset + c.word.length) ++ ' ' :: text.drop (c.offset + c.word.length)
        else
          text.take c.offset ++ text.drop (c.offset + c.word.length)) ∧
      isCommentLine (lines.getD (c.line - 1) []) = false := by
  intro toks
  induction toks with
  | nil =>
    intro version c hc
    simp [runTokens] at hc
  | cons tok rest ih =>
    intro version c hc
    obtain ⟨matchIndex, word⟩ := tok
    simp only [runTokens] at hc
    by_cases hcm : isCommentLine
        (lines.getD ((lineTable.get1BasedLineAndColumn matchIndex).line - 1) []) = true
    · rw [if_pos hcm] at hc
      exact ih version c hc
    · rw [if_neg hcm] at hc
      simp only [List.mem_cons] at hc
      rcases hc with h | h
      · subst h
        refine ⟨rfl, rfl, rfl, rfl, rfl, rfl, rfl, ?_⟩
        simpa using hcm
      · exact ih (version + 1 + 1) c h

/-- Version accounting of the token loop: the final counter exceeds the
initial one by twice the number of cycles, and the cycle at index `i` uses
probe version `version + 2 * i + 1` and revert version
`version + 2 * i + 2`. -/
theorem runTokens_version (jumpToDef : Bool) (text : List Char) (lines : List (List Char))
    (lineTable : LineTable) :
    ∀ (toks : List (Nat × List Char)) (version : Nat),
      (runTokens jumpToDef text lines lineTable toks version).2 =
        version + 2 * (runTokens jumpToDef text lines lineTable toks version).1.length ∧
      ∀ i, i < (runTokens jumpToDef text lines lineTable toks version).1.length →
        ((runTokens jumpToDef text lines lineTable toks version).1.getD i default).probeVersion =
            version + 2 * i + 1 ∧
        ((runTokens jumpToDef text lines lineTable toks version).1.getD i default).revertVersion =
            version + 2 * i + 2 := by
  intro toks
  induction toks with
  | nil =>
    intro version
    refine ⟨by simp [runTokens], ?_⟩
    intro i h
    simp [runTokens] at h
  | cons tok rest ih =>
    intro version
    obtain ⟨matchIndex, word⟩ := tok
    simp only [runTokens]
    by_cases hcm : isCommentLine
        (lines.getD ((lineTable.get1BasedLineAndColumn matchIndex).line - 1) []) = true
    · rw [if_pos hcm]
      exact ih version
    · rw [if_neg hcm]
      obtain ⟨hfin, hidx⟩ := ih (version + 1 + 1)
      refine ⟨?_, ?_⟩
      · simp only [List.length_cons]
        omega
      · intro i h
        match i with
        | 0 => exact ⟨rfl, rfl⟩
        | i + 1 =>
          simp only [List.length_cons] at h
          have := hidx i (by omega)
          simp only [List.getD_cons_succ]
          constructor
          · rw [this.1]
            ring
          · rw [this.2]
            ring

/-! Claim theorems. -/

/-- C1: for every measured token, in either mode, the full-document text
sent in the revert change notification is byte-identical to the document
text sent in the open notification, so every probe edit is exactly undone
before the next token's cycle begins, for any number of tokens. -/
theorem claim_C1_revert_roundtrip (jumpToDef : Bool) (text : List Char) (c : Cycle)
    (hc : c ∈ (processFile jumpToDef text).cycles) :
    c.revertText = (processFile jumpToDef text).openText :=
  (runTokens_mem jumpToDef text (splitLines text) (LineTable.ofText text)
    (scanTokens text) 1 c hc).1

/-- Witness for C1: the first cycle of completion mode on text "foo bar". -/
theorem claim_C1_witness :
    ({ offset := 0, word := ['f','o','o'], line := 1, column := 1, probeVersion := 2,
       probeText := [' ','b','a','r'], posLine := 1, posColumn := 1, requestVersion := 2,
       revertVersion := 3, revertText := ['f','o','o',' ','b','a','r'] } : Cycle).revertText =
      (processFile false ['f','o','o',' ','b','a','r']).openText :=
  claim_C1_revert_roundtrip false ['f','o','o',' ','b','a','r'] _ (by decide)

/-- C2: the version counter starts at 1 at open time and is bumped exactly
twice per measured token, so after k measured tokens it is 1 + 2k; the
cycle at index i uses probe version 2i + 2 and revert version 2i + 3, and
the version sequence sent to the server is strictly increasing. -/
theorem claim_C2_version_counter (jumpToDef : Bool) (text : List Char) :
    (processFile jumpToDef text).openVersion = 1 ∧
    (processFile jumpToDef text).finalVersion =
      1 + 2 * (processFile jumpToDef text).cycles.length ∧
    (∀ i, i < (processFile jumpToDef text).cycles.length →
      ((processFile jumpToDef text).cycles.getD i default).probeVersion = 2 * i + 2 ∧
      ((processFile jumpToDef text).cycles.getD i default).revertVersion = 2 * i + 3) ∧
    (∀ i, i < (processFile jumpToDef text).cycles.length →
      (processFile jumpToDef text).openVersion <
        ((processFile jumpToDef text).cycles.getD i default).probeVersion ∧
      ((processFile jumpToDef text).cycles.getD i default).probeVersion <
        ((processFile jumpToDef text).cycles.getD i default).revertVersion) ∧
    (∀ i j, i < j → j < (processFile jumpToDef text).cycles.length →
      ((processFile jumpToDef text).cycles.getD i default).revertVersion <
        ((processFile jumpToDef text).cycles.getD j default).probeVersion) := by
  obtain ⟨hfin, hidx⟩ := runTokens_version jumpToDef text (splitLines text)
    (LineTable.ofText text) (scanTokens text) 1
  simp only [processFile]
  refine ⟨trivial, hfin, ?_, ?_, ?_⟩
  · intro i hi
    have := hidx i hi
    omega
  · intro i hi
    have := hidx i hi
    exact ⟨by omega, by omega⟩
  · intro i j hij hj
    have h1 := hidx i (by omega)
    have h2 := hidx j hj
    omega

/-- Witness for C2: on text "foo bar" in completion mode, two cycles are
produced, the final version is 5, the first cycle uses versions 2 and 3,
and the first revert version is below the second probe version. -/
theorem claim_C2_witness :
    (processFile false ['f','o','o',' ','b','a','r']).openVersion = 1 ∧
    (processFile false ['f','o','o',' ','b','a','r']).finalVersion =
      1 + 2 * (processFile false ['f','o','o',' ','b','a','r']).cycles.length ∧
    ((processFile false ['f','o','o',' ','b','a','r']).cycles.getD 0 default).probeVersion =
      2 * 0 + 2 ∧
    ((processFile false ['f','o','o',' ','b','a','r']).cycles.getD 0 default).revertVersion =
      2 * 0 + 3 ∧
    ((processFile false ['f','o','o',' ','b','a','r']).cycles.getD 0 default).revertVersion <
      ((processFile false ['f','o','o',' ','b','a','r']).cycles.getD 1 default).probeVersion := by
  obtain ⟨h1, h2, h3, h4, h5⟩ := claim_C2_version_counter false ['f','o','o',' ','b','a','r']
  exact ⟨h1, h2, (h3 0 (by decide)).1, (h3 0 (by decide)).2, h5 0 1 (by decide) (by decide)⟩

/-- C3: every probe change notification carries the full replacement text:
with jump-to-definition, the original text with one space inserted right
after the token; with completion, the original text with the token's
characters removed. For text "foo bar" in completion mode the two probes
are " bar" and "foo ", the latter for token "bar" at offset 4. -/
theorem claim_C3_probe_text (jumpToDef : Bool) (text : List Char) (c : Cycle)
    (hc : c ∈ (processFile jumpToDef text).cycles) :
    (c.probeText = if jumpToDef then
        text.take (c.offset + c.word.length) ++ ' ' :: text.drop (c.offset + c.word.length)
      else
        text.take c.offset ++ text.drop (c.offset + c.word.length)) ∧
    (processFile false ['f','o','o',' ','b','a','r']).cycles.map
        (fun d => (d.offset, d.word, d.probeText)) =
      [(0, ['f','o','o'], [' ','b','a','r']), (4, ['b','a','r'], ['f','o','o',' '])] :=
  ⟨(runTokens_mem jumpToDef text (splitLines text) (LineTable.ofText text)
      (scanTokens text) 1 c hc).2.2.2.2.2.2.1, by decide⟩

/-- Witness for C3: the cycle of token "bar" in completion mode on
"foo bar" sends exactly the text "foo ". -/
theorem claim_C3_witness :
    ({ offset := 4, word := ['b','a','r'], line := 1, column := 5, probeVersion := 4,
       probeText := ['f','o','o',' '], posLine := 1, posColumn := 5, requestVersion := 4,
       revertVersion := 5, revertText := ['f','o','o',' ','b','a','r'] } : Cycle).probeText =
      (if false then
        List.take (4 + (['b','a','r'] : List Char).length) ['f','o','o',' ','b','a','r'] ++
          ' ' :: List.drop (4 + (['b','a','r'] : List Char).length) ['f','o','o',' ','b','a','r']
      else
        List.take 4 ['f','o','o',' ','b','a','r'] ++
          List.drop (4 + (['b','a','r'] : List Char).length) ['f','o','o',' ','b','a','r']) :=
  (claim_C3_probe_text false ['f','o','o',' ','b','a','r'] _ (by decide)).1

/-- C4: a token starting on a line that passes the comment heuristic is
excluded entirely: every produced cycle is on a non-comment line, and for
text "// foo bar" both modes produce no cycle and leave the version
counter at 1 (no notification, no request, no version bump, no
Measurement). -/
theorem claim_C4_comment_skip (jumpToDef : Bool) (text : List Char) (c : Cycle)
    (hc : c ∈ (processFile jumpToDef text).cycles) :
    isCommentLine ((splitLines text).getD (c.line - 1) []) = false ∧
    (processFile false ['/','/',' ','f','o','o',' ','b','a','r']).cycles = [] ∧
    (processFile false ['/','/',' ','f','o','o',' ','b','a','r']).finalVersion = 1 ∧
    (processFile true ['/','/',' ','f','o','o',' ','b','a','r']).cycles = [] ∧
    (processFile true ['/','/',' ','f','o','o',' ','b','a','r']).finalVersion = 1 :=
  ⟨(runTokens_mem jumpToDef text (splitLines text) (LineTable.ofText text)
      (scanTokens text) 1 c hc).2.2.2.2.2.2.2,
    by decide, by decide, by decide, by decide⟩

/-- Witness for C4: the sole cycle of completion mode on text "x" is on a
non-comment line. -/
theorem claim_C4_witness :
    isCommentLine ((splitLines ['x']).getD
      (({ offset := 0, word := ['x'], line := 1, column := 1, probeVersion := 2,
          probeText := [], posLine := 1, posColumn := 1, requestVersion := 2,
          revertVersion := 3, revertText := ['x'] } : Cycle).line - 1) []) = false :=
  (claim_C4_comment_skip false ['x'] _ (by decide)).1

/-- C5: the result cardinality is 0 for an absent result, the array length
for an array result, the length of the items field for an object carrying
one, and 1 otherwise; a bare list of three items yields 3 and an object
whose items field holds two elements yields 2. -/
theorem claim_C5_cardinality :
    numberOfResults Json.null = some 0 ∧
    (∀ elems : List Json, numberOfResults (Json.arr elems) = some elems.length) ∧
    (∀ (fields : List (String × Json)) (items : List Json),
      jsonField "items" fields = some (Json.arr items) →
      numberOfResults (Json.obj fields) = some items.length) ∧
    (∀ fields : List (String × Json), jsonField "items" fields = none →
      numberOfResults (Json.obj fields) = some 1) ∧
    numberOfResults (Json.arr [Json.prim true, Json.prim true, Json.prim true]) = some 3 ∧
    numberOfResults (Json.obj [("items", Json.arr [Json.prim true, Json.prim true])]) =
      some 2 := by
  refine ⟨rfl, fun elems => rfl, ?_, ?_, by decide, by decide⟩
  · intro fields items h
    simp only [numberOfResults, h]
  · intro fields h
    simp only [numberOfResults, h]

/-- Witness for C5: an object whose items field holds one element yields
cardinality 1 through the items branch. -/
theorem claim_C5_witness :
    numberOfResults (Json.obj [("items", Json.arr [Json.null])]) = some 1 :=
  claim_C5_cardinality.2.2.1 [("items", Json.arr [Json.null])] [Json.null] rfl

/-- C6: `getLineFromOffset` returns the greatest line index whose recorded
start is at most the offset; it returns the final index when the offset
reaches the largest recorded start, `getLowerBound` returns 0 when the
value precedes every element, and an offset equal to a recorded start
resolves to exactly that line. -/
theorem claim_C6_line_lookup (text : List Char) (offset : Nat) :
    (LineTable.ofText text).getLineFromOffset offset <
        (LineTable.ofText text).lineStarts.length ∧
    (LineTable.ofText text).lineStarts.getD
        ((LineTable.ofText text).getLineFromOffset offset) 0 ≤ offset ∧
    (∀ j, j < (LineTable.ofText text).lineStarts.length →
      (LineTable.ofText text).lineStarts.getD j 0 ≤ offset →
      j ≤ (LineTable.ofText text).getLineFromOffset offset) ∧
    ((LineTable.ofText text).lineStarts.getD
        ((LineTable.ofText text).lineStarts.length - 1) 0 ≤ offset →
      (LineTable.ofText text).getLineFromOffset offset =
        (LineTable.ofText text).lineStarts.length - 1) ∧
    (∀ (array : List Nat) (value : Nat), value < array.getD 0 0 →
      getLowerBound array value = 0) ∧
    (∀ k, k < (LineTable.ofText text).lineStarts.length →
      (LineTable.ofText text).lineStarts.getD k 0 = offset →
      (LineTable.ofText text).getLineFromOffset offset = k) := by
  obtain ⟨hch, hhd, hne⟩ := computeLineStarts_props text
  have hlen : 0 < (computeLineStarts text).length := List.length_pos.mpr hne
  have hspec := getLowerBound_spec (computeLineStarts text) offset hne
    (computeLineStarts_mono text)
  have h0 : (computeLineStarts text).getD 0 0 ≤ offset := by
    rw [computeLineStarts_getD_zero]
    exact Nat.zero_le _
  obtain ⟨hra, hgr⟩ := hspec.2 h0
  simp only [LineTable.getLineFromOffset, LineTable.ofText]
  refine ⟨hspec.1, hra, hgr, ?_, ?_, ?_⟩
  · intro hbig
    have h1 := hgr ((computeLineStarts text).length - 1) (by omega) hbig
    have h2 := hspec.1
    omega
  · intro array value h
    unfold getLowerBound
    rw [if_pos h]
  · intro k hk hke
    have h1 := hgr k hk (Nat.le_of_eq hke)
    by_contra hc
    push_neg at hc
    have hlt : k < getLowerBound (computeLineStarts text) offset := by omega
    have := computeLineStarts_strictMono text k
      (getLowerBound (computeLineStarts text) offset) hlt hspec.1
    omega

/-- Witness for C6: in text "a", newline, "b" the offset 2 is the recorded
start of line index 1 and resolves to that line, not the preceding one. -/
theorem claim_C6_witness :
    (LineTable.ofText ['a','\n','b']).getLineFromOffset 2 = 1 :=
  (claim_C6_line_lookup ['a','\n','b'] 2).2.2.2.2.2 1 (by decide) (by decide)

/-- C7: for non-empty text the computed line-start sequence is strictly
increasing and begins with 0; for empty text it is exactly the one-element
sequence holding 0. -/
theorem claim_C7_line_start_invariant (text : List Char) (_hne : text ≠ []) :
    (List.Chain' (· < ·) (LineTable.ofText text).lineStarts ∧
      (LineTable.ofText text).lineStarts.head? = some 0) ∧
    (LineTable.ofText []).lineStarts = [0] := by
  obtain ⟨h1, h2, -⟩ := computeLineStarts_props text
  exact ⟨⟨h1, h2⟩, rfl⟩

/-- Witness for C7 at the text "ab", newline, "cd". -/
theorem claim_C7_witness :
    (List.Chain' (· < ·) (LineTable.ofText ['a','b','\n','c','d']).lineStarts ∧
      (LineTable.ofText ['a','b','\n','c','d']).lineStarts.head? = some 0) ∧
    (LineTable.ofText []).lineStarts = [0] :=
  claim_C7_line_start_invariant ['a','b','\n','c','d'] (by decide)

/-- C8: a carriage return directly followed by a line feed is one line
terminator: the scan records a single new start past both characters; the
text "a", CR, LF, "b" has line starts 0 and 3 (with the end sentinel 4),
its four offsets lie on two lines only, offset 3 resolves to 1-based line
2 and column 1, and the line split yields exactly two lines. -/
theorem claim_C8_crlf_single_terminator :
    (∀ (rest2 : List Char) (i : Nat),
      scanLineStarts ('\r' :: '\n' :: rest2) i = (i + 2) :: scanLineStarts rest2 (i + 2)) ∧
    computeLineStarts ['a','\r','\n','b'] = [0, 3, 4] ∧
    (LineTable.ofText ['a','\r','\n','b']).get1BasedLineAndColumn 3 = ⟨2, 1⟩ ∧
    (LineTable.ofText ['a','\r','\n','b']).getLineFromOffset 0 = 0 ∧
    (LineTable.ofText ['a','\r','\n','b']).getLineFromOffset 1 = 0 ∧
    (LineTable.ofText ['a','\r','\n','b']).getLineFromOffset 2 = 0 ∧
    (LineTable.ofText ['a','\r','\n','b']).getLineFromOffset 3 = 1 ∧
    splitLines ['a','\r','\n','b'] = [['a'], ['b']] :=
  ⟨fun _ _ => rfl, by decide, by decide, by decide, by decide, by decide, by decide, by decide⟩

/-- C9: the position sent with the measured request equals the 1-based line
and column recorded in the Measurement, which are the line table's answer
for the token's start offset: one more, in each coordinate, than the
0-based line and column. -/
theorem claim_C9_request_position (jumpToDef : Bool) (text : List Char) (c : Cycle)
    (hc : c ∈ (processFile jumpToDef text).cycles) :
    c.posLine = c.line ∧ c.posColumn = c.column ∧
    (⟨c.line, c.column⟩ : LineAndColumn1) =
      (LineTable.ofText text).get1BasedLineAndColumn c.offset ∧
    c.line = (LineTable.ofText text).getLineFromOffset c.offset + 1 ∧
    c.column = (LineTable.ofText text).getColumnFromLineAndOffset
        ((LineTable.ofText text).getLineFromOffset c.offset) c.offset + 1 := by
  have h := runTokens_mem jumpToDef text (splitLines text) (LineTable.ofText text)
    (scanTokens text) 1 c hc
  have h6 := h.2.2.2.2.2.1
  refine ⟨h.2.1, h.2.2.1, h6, ?_, ?_⟩
  · have := congrArg LineAndColumn1.line h6
    simpa [LineTable.get1BasedLineAndColumn] using this
  · have := congrArg LineAndColumn1.column h6
    simpa [LineTable.get1BasedLineAndColumn] using this

/-- Witness for C9: the cycle of token "bar" on "foo bar" sends position
line 1, column 5, the 1-based coordinates of offset 4. -/
theorem claim_C9_witness :
    ({ offset := 4, word := ['b','a','r'], line := 1, column := 5, probeVersion := 4,
       probeText := ['f','o','o',' '], posLine := 1, posColumn := 5, requestVersion := 4,
       revertVersion := 5, revertText := ['f','o','o',' ','b','a','r'] } : Cycle).posLine =
      ({ offset := 4, word := ['b','a','r'], line := 1, column := 5, probeVersion := 4,
         probeText := ['f','o','o',' '], posLine := 1, posColumn := 5, requestVersion := 4,
         revertVersion := 5, revertText := ['f','o','o',' ','b','a','r'] } : Cycle).line :=
  (claim_C9_request_position false ['f','o','o',' ','b','a','r'] _ (by decide)).1

/-- C10: the binary-search loop terminates: the rounded-up midpoint makes
both halves strictly smaller than the interval, the loop always returns a
value when its iteration bound exceeds the interval width, and in
particular the loop call made for any line table's offset lookup always
returns a value. -/
theorem claim_C10_search_terminates (low high : Nat) (hlh : low < high) :
    (high - glbMid low high < high - low ∧ glbMid low high - 1 - low < high - low) ∧
    (∀ (array : List Nat) (value lo hi fuel : Nat), hi - lo < fuel →
      (glbLoop array value lo hi fuel).isSome = true) ∧
    (∀ (text : List Char) (offset : Nat),
      (glbLoop (LineTable.ofText text).lineStarts offset 0
          ((LineTable.ofText text).lineStarts.length - 1)
          (LineTable.ofText text).lineStarts.length).isSome = true) := by
  refine ⟨?_, fun array value lo hi fuel hf => glbLoop_isSome array value fuel lo hi hf, ?_⟩
  · have := glbMid_bounds low high hlh
    exact ⟨this.2.2.1, this.2.2.2⟩
  · intro text offset
    have hne := (computeLineStarts_props text).2.2
    have hlen : 0 < (computeLineStarts text).length := List.length_pos.mpr hne
    have heq : (LineTable.ofText text).lineStarts = computeLineStarts text := rfl
    rw [heq]
    exact glbLoop_isSome _ _ _ _ _ (by omega)

/-- Witness for C10 at the interval from 0 to 5 and a concrete loop call. -/
theorem claim_C10_witness :
    ((5 - glbMid 0 5 < 5 - 0 ∧ glbMid 0 5 - 1 - 0 < 5 - 0) ∧
      (glbLoop [0, 2, 7] 3 0 2 3).isSome = true ∧
      (glbLoop (LineTable.ofText ['a','\n','b']).lineStarts 2 0
          ((LineTable.ofText ['a','\n','b']).lineStarts.length - 1)
          (LineTable.ofText ['a','\n','b']).lineStarts.length).isSome = true) :=
  ⟨(claim_C10_search_terminates 0 5 (by decide)).1,
    (claim_C10_search_terminates 0 5 (by decide)).2.1 [0, 2, 7] 3 0 2 3 (by decide),
    (claim_C10_search_terminates 0 5 (by decide)).2.2 ['a','\n','b'] 2⟩

end LspBench
